import Mathlib

/-!
Shallow embedding of the yodk tokenizer (`parser/tokenizer.go`).

The tokenizer splits YOLOL source code into tokens.  `Load` lowercases the
whole input and resets line/column; `Next` tries the recognizers in a fixed
order (comment, EOF-check, whitespace, keyword, newline, symbol, identifier,
string, number) and falls back to a one-character Unknown token.

Go regexes are embedded as explicit character-list matchers:
  keywordRegex    = ^\b(if|else|end|then|goto|and|or|not)\b
  identifierRegex = ^:?[a-zA-Z]+[a-zA-Z0-9_]*
  numberRegex     = ^[0-9]+(\.[0-9]+)?
  commentRegex    = ^[ \t]*//([^\n]*)        (Find returns the whole match)
  whitespaceRegex = ^[ \t\r]+
Strings are modelled as `List Char`; the claims only involve ASCII input,
for which Go's byte positions and these character positions coincide.
-/

namespace Yodk

/-- Token type constants from the source. -/
def TypeID : String := "ID"

def TypeNumber : String := "Number"

def TypeString : String := "String"

def TypeKeyword : String := "Keyword"

def TypeSymbol : String := "Symbol"

def TypeNewline : String := "Newline"

def TypeEOF : String := "EOF"

def TypeComment : String := "Comment"

def TypeWhitespace : String := "Whitespace"

def TypeUnknown : String := "Unknown"

/-- `Position` of a token in the source (the source spells it `Coloumn`). -/
structure Position where
  Line : Nat
  Coloumn : Nat
deriving DecidableEq, Repr

/-- A token: its type tag, its value and its starting position.
(The Go field `Type` clashes with a Lean keyword, hence `typ`.) -/
structure Token where
  typ : String
  value : String
  pos : Position
deriving DecidableEq, Repr

/-- Tokenizer state: current column, current line, unconsumed text.
The Go struct also stores the original text and the regexes; they do not
influence tokenization and are omitted. -/
structure Tokenizer where
  column : Nat
  line : Nat
  remaining : List Char
deriving DecidableEq, Repr

/-- The ordered symbol list (the duplicate `==` is in the source). -/
def symbols : List String :=
  ["++", "--", ">=", "<=", "!=", "==", "==", "+=", "-=", "*=", "/=", "%=",
   "=", ">", "<", "+", "-", "*", "/", "^", "%", ",", "(", ")"]

/-- The keyword alternatives of `keywordRegex`, in regex order. -/
def keywords : List String :=
  ["if", "else", "end", "then", "goto", "and", "or", "not"]

/-- Go `\w` / `\b` word characters: `[0-9A-Za-z_]`. -/
def isWordChar (c : Char) : Bool :=
  c.isAlpha || c.isDigit || c == '_'

/-- `bytes.HasPrefix` on character lists. -/
def startsWith : List Char → List Char → Bool
  | [], _ => true
  | _ :: _, [] => false
  | p :: ps, c :: cs => p == c && startsWith ps cs

/-- `newToken` builds a token at the current line/column. -/
def newToken (t : Tokenizer) (typ : String) (val : String) : Token :=
  { typ := typ, value := val, pos := { Line := t.line, Coloumn := t.column } }

/-- `advance`: add `amount` to the column and cut `amount` characters off
the unconsumed text. -/
def advance (t : Tokenizer) (amount : Nat) : Tokenizer :=
  { t with column := t.column + amount, remaining := t.remaining.drop amount }

/-- `Load`: lowercase the input (ASCII case of `strings.ToLower`),
set column and line to 1. -/
def Load (input : String) : Tokenizer :=
  { column := 1, line := 1, remaining := input.data.map Char.toLower }

/-- `getWhitespace`: maximal run matching `^[ \t\r]+`. -/
def getWhitespace (t : Tokenizer) : Option (Token × Tokenizer) :=
  let found := t.remaining.takeWhile fun c => c == ' ' || c == '\t' || c == '\r'
  if found = [] then none
  else some (newToken t TypeWhitespace found.asString, advance t found.length)

/-- `getNewline`: on a leading `'\n'`, emit a Newline token at the current
position, then increment the line, reset the column to 0 and advance by one
character (so the column ends up 1). -/
def getNewline (t : Tokenizer) : Option (Token × Tokenizer) :=
  match t.remaining with
  | c :: _ =>
    if c = '\n' then
      some (newToken t TypeNewline "",
            advance { t with line := t.line + 1, column := 0 } 1)
    else none
  | [] => none

/-- `getSymbol`: the first entry of `symbols` that literally prefixes the
unconsumed text. -/
def getSymbol (t : Tokenizer) : Option (Token × Tokenizer) :=
  match symbols.find? fun s => startsWith s.data t.remaining with
  | some s => some (newToken t TypeSymbol s, advance t s.length)
  | none => none

/-- `getComment`: `commentRegex.Find`, i.e. the whole match of
`^[ \t]*//([^\n]*)` — leading blanks and the `//` included. -/
def getComment (t : Tokenizer) : Option (Token × Tokenizer) :=
  let ws := t.remaining.takeWhile fun c => c == ' ' || c == '\t'
  match t.remaining.drop ws.length with
  | c1 :: c2 :: tail =>
    if c1 = '/' ∧ c2 = '/' then
      let body := tail.takeWhile fun c => c != '\n'
      let found := ws ++ c1 :: c2 :: body
      some (newToken t TypeComment found.asString, advance t found.length)
    else none
  | _ => none

/-- Word boundary of `keywordRegex` after the matched word: end of input or
a non-word character. -/
def boundaryAfter (rem : List Char) (n : Nat) : Bool :=
  match rem.drop n with
  | [] => true
  | c :: _ => !(isWordChar c)

/-- `getKeyword`: `keywordRegex.FindSubmatch`.  A keyword matches when it
literally prefixes the text and is followed by a word boundary; the leading
`\b` holds automatically because keywords start with a letter.  No keyword
is a prefix of another, so checking the alternatives in order is exact. -/
def getKeyword (t : Tokenizer) : Option (Token × Tokenizer) :=
  match keywords.find? fun kw =>
      startsWith kw.data t.remaining && boundaryAfter t.remaining kw.length with
  | some kw => some (newToken t TypeKeyword kw, advance t kw.length)
  | none => none

/-- `getIdentifier`: `identifierRegex.Find` for `^:?[a-zA-Z]+[a-zA-Z0-9_]*`:
an optional leading colon, one or more letters, then word characters. -/
def getIdentifier (t : Tokenizer) : Option (Token × Tokenizer) :=
  match t.remaining with
  | [] => none
  | c :: r =>
    if c = ':' then
      -- the optional colon is taken, so the letters must follow it
      let letters := r.takeWhile Char.isAlpha
      if letters = [] then none
      else
        let tailChars := (r.drop letters.length).takeWhile isWordChar
        let found := ':' :: (letters ++ tailChars)
        some (newToken t TypeID found.asString, advance t found.length)
    else
      let letters := t.remaining.takeWhile Char.isAlpha
      if letters = [] then none
      else
        let tailChars := (t.remaining.drop letters.length).takeWhile isWordChar
        let found := letters ++ tailChars
        some (newToken t TypeID found.asString, advance t found.length)

/-- The scan of `getStringConstant` over the text after the opening quote:
index of the first closing quote, tracking the escape flag exactly as the
Go loop does. -/
def findCloseAux : List Char → Nat → Bool → Option Nat
  | [], _, _ => none
  | _ :: rest, i, true => findCloseAux rest (i + 1) false
  | b :: rest, i, false =>
    if b = '\\' then findCloseAux rest (i + 1) true
    else if b = '"' then some i
    else findCloseAux rest (i + 1) false

/-- `getStringConstant`: needs at least 2 characters, a leading `"` and an
unescaped closing `"`; the value is the raw text strictly between the
quotes and the cursor advances just past the closing quote. -/
def getStringConstant (t : Tokenizer) : Option (Token × Tokenizer) :=
  match t.remaining with
  | c :: tail =>
    if c = '"' ∧ tail ≠ [] then
      match findCloseAux tail 0 false with
      | some i => some (newToken t TypeString (tail.take i).asString, advance t (i + 2))
      | none => none
    else none
  | [] => none

/-- `getNumberConstant`: `numberRegex.Find` for `^[0-9]+(\.[0-9]+)?`. -/
def getNumberConstant (t : Tokenizer) : Option (Token × Tokenizer) :=
  let digits := t.remaining.takeWhile Char.isDigit
  if digits = [] then none
  else
    let rest := t.remaining.drop digits.length
    let found :=
      match rest with
      | c :: r =>
        if c = '.' then
          let frac := r.takeWhile Char.isDigit
          if frac = [] then digits else digits ++ c :: frac
        else digits
      | [] => digits
    some (newToken t TypeNumber found.asString, advance t found.length)

/-- `Next`: try the recognizers in source order; on empty input return EOF
without advancing; otherwise fall back to a one-character Unknown token. -/
def Next (t : Tokenizer) : Token × Tokenizer :=
  match getComment t with
  | some r => r
  | none =>
    match t.remaining with
    | [] => (newToken t TypeEOF "", t)
    | c :: _ =>
      match getWhitespace t with
      | some r => r
      | none =>
        match getKeyword t with
        | some r => r
        | none =>
          match getNewline t with
          | some r => r
          | none =>
            match getSymbol t with
            | some r => r
            | none =>
              match getIdentifier t with
              | some r => r
              | none =>
                match getStringConstant t with
                | some r => r
                | none =>
                  match getNumberConstant t with
                  | some r => r
                  | none => (newToken t TypeUnknown (String.mk [c]), advance t 1)

/-- The state after `n` calls to `Next`. -/
def run (t : Tokenizer) : Nat → Tokenizer
  | 0 => t
  | n + 1 => run (Next t).2 n

/-- The `n`-th token (0-based) of the stream produced by repeated `Next`. -/
def tokenAt (t : Tokenizer) (n : Nat) : Token :=
  (Next (run t n)).1

/-- The first `n` tokens of the stream. -/
def tokens (t : Tokenizer) : Nat → List Token
  | 0 => []
  | n + 1 => (Next t).1 :: tokens (Next t).2 n

/-! ### Inversion lemmas for the recognizers

Each recognizer that succeeds emits a token at the current position and
plainly advances the cursor by at least one character; `getNewline`
additionally bumps the line and resets the column. -/

theorem getWhitespace_some {t : Tokenizer} {p : Token × Tokenizer}
    (h : getWhitespace t = some p) :
    ∃ v n, 0 < n ∧ t.remaining ≠ [] ∧ p = (newToken t TypeWhitespace v, advance t n) := by
  simp only [getWhitespace] at h
  split at h
  · exact Option.noConfusion h
  · next hf =>
    injection h with h'
    refine ⟨_, _, List.length_pos.mpr hf, ?_, h'.symm⟩
    intro h0
    apply hf
    rw [h0]
    rfl

theorem getComment_some {t : Tokenizer} {p : Token × Tokenizer}
    (h : getComment t = some p) :
    ∃ v n, 0 < n ∧ t.remaining ≠ [] ∧ p = (newToken t TypeComment v, advance t n) := by
  simp only [getComment] at h
  split at h
  · next c1 c2 tail heq =>
    split at h
    · next hcond =>
      injection h with h'
      refine ⟨_, _, ?_, ?_, h'.symm⟩
      · simp
      · intro h0
        rw [h0] at heq
        simp at heq
    · exact Option.noConfusion h
  · exact Option.noConfusion h

theorem getSymbol_some {t : Tokenizer} {p : Token × Tokenizer}
    (h : getSymbol t = some p) :
    ∃ v n, 0 < n ∧ t.remaining ≠ [] ∧ p = (newToken t TypeSymbol v, advance t n) := by
  simp only [getSymbol] at h
  split at h
  · next s hfind =>
    injection h with h'
    have hmem := List.mem_of_find?_eq_some hfind
    have hpred := List.find?_some hfind
    refine ⟨s, s.length, ?_, ?_, h'.symm⟩
    · have hall : ∀ x ∈ symbols, 0 < x.length := by decide
      exact hall s hmem
    · intro h0
      rw [h0] at hpred
      have hd : s.data ≠ [] := by
        have hall : ∀ x ∈ symbols, x.data ≠ [] := by decide
        exact hall s hmem
      cases hs : s.data with
      | nil => exact hd hs
      | cons a as => rw [hs] at hpred; simp [startsWith] at hpred
  · exact Option.noConfusion h

theorem getKeyword_some {t : Tokenizer} {p : Token × Tokenizer}
    (h : getKeyword t = some p) :
    ∃ v n, 0 < n ∧ t.remaining ≠ [] ∧ p = (newToken t TypeKeyword v, advance t n) := by
  simp only [getKeyword] at h
  split at h
  · next s hfind =>
    injection h with h'
    have hmem := List.mem_of_find?_eq_some hfind
    have hpred := List.find?_some hfind
    rw [Bool.and_eq_true] at hpred
    refine ⟨s, s.length, ?_, ?_, h'.symm⟩
    · have hall : ∀ x ∈ keywords, 0 < x.length := by decide
      exact hall s hmem
    · intro h0
      rw [h0] at hpred
      have hd : s.data ≠ [] := by
        have hall : ∀ x ∈ keywords, x.data ≠ [] := by decide
        exact hall s hmem
      cases hs : s.data with
      | nil => exact hd hs
      | cons a as => rw [hs] at hpred; simp [startsWith] at hpred
  · exact Option.noConfusion h

theorem getNewline_some {t : Tokenizer} {p : Token × Tokenizer}
    (h : getNewline t = some p) :
    t.remaining ≠ [] ∧
      p = (newToken t TypeNewline "",
        { t with line := t.line + 1, column := 1, remaining := t.remaining.drop 1 }) := by
  simp only [getNewline] at h
  split at h
  · next c cs heq =>
    split at h
    · injection h with h'
      refine ⟨?_, ?_⟩
      · rw [heq]; simp
      · rw [← h']
        simp [advance]
    · exact Option.noConfusion h
  · exact Option.noConfusion h

theorem getIdentifier_some {t : Tokenizer} {p : Token × Tokenizer}
    (h : getIdentifier t = some p) :
    ∃ v n, 0 < n ∧ t.remaining ≠ [] ∧ p = (newToken t TypeID v, advance t n) := by
  simp only [getIdentifier] at h
  split at h
  · exact Option.noConfusion h
  · next c r heq =>
    have hne : t.remaining ≠ [] := by rw [heq]; simp
    split at h
    · split at h
      · exact Option.noConfusion h
      · next hl =>
        injection h with h'
        exact ⟨_, _, by simp, hne, h'.symm⟩
    · split at h
      · exact Option.noConfusion h
      · next hl =>
        injection h with h'
        refine ⟨_, _, ?_, hne, h'.symm⟩
        have := List.length_pos.mpr hl
        simp only [List.length_append]
        omega

theorem getStringConstant_some {t : Tokenizer} {p : Token × Tokenizer}
    (h : getStringConstant t = some p) :
    ∃ tail i, t.remaining = '"' :: tail ∧ tail ≠ [] ∧
      findCloseAux tail 0 false = some i ∧
      p = (newToken t TypeString (tail.take i).asString, advance t (i + 2)) := by
  simp only [getStringConstant] at h
  split at h
  · next c tail heq =>
    split at h
    · next hcond =>
      split at h
      · next i hfind =>
        injection h with h'
        exact ⟨tail, i, by rw [← hcond.1]; exact heq, hcond.2, hfind, h'.symm⟩
      · exact Option.noConfusion h
    · exact Option.noConfusion h
  · exact Option.noConfusion h

theorem getNumberConstant_some {t : Tokenizer} {p : Token × Tokenizer}
    (h : getNumberConstant t = some p) :
    ∃ v n, 0 < n ∧ t.remaining ≠ [] ∧ p = (newToken t TypeNumber v, advance t n) := by
  simp only [getNumberConstant] at h
  split at h
  · exact Option.noConfusion h
  · next hd =>
    injection h with h'
    have hne : t.remaining ≠ [] := by
      intro h0
      apply hd
      rw [h0]
      rfl
    have hpos := List.length_pos.mpr hd
    refine ⟨_, _, ?_, hne, h'.symm⟩
    repeat' split
    all_goals first
      | exact hpos
      | (simp only [List.length_append, List.length_cons]; omega)

/-! ### Characterization of a single `Next` step -/

/-- Every `Next` step either hits the EOF case (empty input, state
unchanged) or emits a token at the current position and advances by at
least one character; the newline step additionally bumps the line and
leaves the column at 1. -/
theorem Next_cases (t : Tokenizer) :
    (t.remaining = [] ∧ Next t = (newToken t TypeEOF "", t)) ∨
    (t.remaining ≠ [] ∧
      ((∃ ty v n, 0 < n ∧ Next t = (newToken t ty v, advance t n)) ∨
        Next t = (newToken t TypeNewline "",
          { t with line := t.line + 1, column := 1, remaining := t.remaining.drop 1 }))) := by
  cases hcom : getComment t with
  | some p =>
    obtain ⟨v, n, hn, hne, hp⟩ := getComment_some hcom
    refine Or.inr ⟨hne, Or.inl ⟨TypeComment, v, n, hn, ?_⟩⟩
    simp only [Next, hcom]
    exact hp
  | none =>
    cases hrem : t.remaining with
    | nil =>
      refine Or.inl ⟨rfl, ?_⟩
      simp only [Next, hcom, hrem]
    | cons c cs =>
      refine Or.inr ⟨by simp, ?_⟩
      cases hws : getWhitespace t with
      | some p =>
        obtain ⟨v, n, hn, _, hp⟩ := getWhitespace_some hws
        refine Or.inl ⟨TypeWhitespace, v, n, hn, ?_⟩
        simp only [Next, hcom, hrem, hws]
        exact hp
      | none =>
        cases hkw : getKeyword t with
        | some p =>
          obtain ⟨v, n, hn, _, hp⟩ := getKeyword_some hkw
          refine Or.inl ⟨TypeKeyword, v, n, hn, ?_⟩
          simp only [Next, hcom, hrem, hws, hkw]
          exact hp
        | none =>
          cases hnl : getNewline t with
          | some p =>
            obtain ⟨_, hp⟩ := getNewline_some hnl
            refine Or.inr ?_
            simp only [Next, hcom, hrem, hws, hkw, hnl]
            rw [← hrem]
            exact hp
          | none =>
            cases hsym : getSymbol t with
            | some p =>
              obtain ⟨v, n, hn, _, hp⟩ := getSymbol_some hsym
              refine Or.inl ⟨TypeSymbol, v, n, hn, ?_⟩
              simp only [Next, hcom, hrem, hws, hkw, hnl, hsym]
              exact hp
            | none =>
              cases hid : getIdentifier t with
              | some p =>
                obtain ⟨v, n, hn, _, hp⟩ := getIdentifier_some hid
                refine Or.inl ⟨TypeID, v, n, hn, ?_⟩
                simp only [Next, hcom, hrem, hws, hkw, hnl, hsym, hid]
                exact hp
              | none =>
                cases hstr : getStringConstant t with
                | some p =>
                  obtain ⟨tail, i, _, _, _, hp⟩ := getStringConstant_some hstr
                  refine Or.inl ⟨TypeString, (tail.take i).asString, i + 2, by omega, ?_⟩
                  simp only [Next, hcom, hrem, hws, hkw, hnl, hsym, hid, hstr]
                  exact hp
                | none =>
                  cases hnum : getNumberConstant t with
                  | some p =>
                    obtain ⟨v, n, hn, _, hp⟩ := getNumberConstant_some hnum
                    refine Or.inl ⟨TypeNumber, v, n, hn, ?_⟩
                    simp only [Next, hcom, hrem, hws, hkw, hnl, hsym, hid, hstr, hnum]
                    exact hp
                  | none =>
                    refine Or.inl ⟨TypeUnknown, String.mk [c], 1, Nat.one_pos, ?_⟩
                    simp only [Next, hcom, hrem, hws, hkw, hnl, hsym, hid, hstr, hnum]

/-- The token returned by `Next` carries the pre-step line/column. -/
theorem Next_pos (t : Tokenizer) :
    (Next t).1.pos = { Line := t.line, Coloumn := t.column } := by
  rcases Next_cases t with ⟨_, h⟩ | ⟨_, ⟨ty, v, n, _, h⟩ | h⟩ <;> rw [h] <;>
    rfl

/-- On exhausted input `Next` returns an EOF token and leaves the state
unchanged. -/
theorem Next_nil {t : Tokenizer} (h : t.remaining = []) :
    Next t = (newToken t TypeEOF "", t) := by
  rcases Next_cases t with ⟨_, h2⟩ | ⟨hne, _⟩
  · exact h2
  · exact absurd h hne

/-- While input remains every `Next` step strictly shortens it. -/
theorem Next_progress {t : Tokenizer} (h : t.remaining ≠ []) :
    (Next t).2.remaining.length < t.remaining.length := by
  rcases Next_cases t with ⟨he, _⟩ | ⟨_, ⟨ty, v, n, hn, h2⟩ | h2⟩
  · exact absurd he h
  · rw [h2]
    simp only [advance, List.length_drop]
    exact Nat.sub_lt (List.length_pos.mpr h) hn
  · rw [h2]
    simp only [List.length_drop]
    exact Nat.sub_lt (List.length_pos.mpr h) Nat.one_pos

/-- Line/column evolution of one `Next` step: the line stays and the
column does not decrease, or the line grows by exactly one and the column
is reset (to 1 after the advance over the newline). -/
theorem Next_line_col (t : Tokenizer) :
    ((Next t).2.line = t.line ∧ t.column ≤ (Next t).2.column) ∨
      ((Next t).2.line = t.line + 1 ∧ (Next t).2.column = 1) := by
  rcases Next_cases t with ⟨_, h⟩ | ⟨_, ⟨ty, v, n, _, h⟩ | h⟩
  · rw [h]; exact Or.inl ⟨rfl, Nat.le_refl _⟩
  · rw [h]; exact Or.inl ⟨rfl, Nat.le_add_right _ _⟩
  · rw [h]; exact Or.inr ⟨rfl, rfl⟩

/-- The unconsumed text after a `Next` step is a suffix of the text
before it. -/
theorem Next_remaining_suffix (t : Tokenizer) :
    (Next t).2.remaining <:+ t.remaining := by
  rcases Next_cases t with ⟨_, h⟩ | ⟨_, ⟨ty, v, n, _, h⟩ | h⟩
  · rw [h]
  · rw [h]; exact List.drop_suffix _ _
  · rw [h]; exact List.drop_suffix _ _

theorem run_succ (t : Tokenizer) (n : Nat) :
    run t (n + 1) = (Next (run t n)).2 := by
  induction n generalizing t with
  | zero => rfl
  | succ n ih =>
    have h : run t (n + 1 + 1) = run (Next t).2 (n + 1) := rfl
    rw [h, ih]
    rfl

/-- After at least `length remaining` steps the input is exhausted. -/
theorem run_remaining_nil {t : Tokenizer} {n : Nat} (h : t.remaining.length ≤ n) :
    (run t n).remaining = [] := by
  induction n generalizing t with
  | zero => exact List.eq_nil_of_length_eq_zero (Nat.le_zero.mp h)
  | succ n ih =>
    show (run (Next t).2 n).remaining = []
    by_cases he : t.remaining = []
    · have h2 : (Next t).2 = t := by rw [Next_nil he]
      rw [h2]
      exact ih (by simp [he])
    · exact ih (by have := Next_progress he; omega)

/-- Every reachable unconsumed text is a suffix of the loaded input. -/
theorem run_remaining_suffix (t : Tokenizer) (n : Nat) :
    (run t n).remaining <:+ t.remaining := by
  induction n generalizing t with
  | zero => exact List.suffix_refl _
  | succ n ih =>
    show (run (Next t).2 n).remaining <:+ _
    exact (ih (Next t).2).trans (Next_remaining_suffix t)

/-! ### The escape scan of `getStringConstant` -/

/-- Whether the scan finds a closing quote does not depend on the running
index. -/
theorem findCloseAux_none_shift {u : List Char} {i j : Nat} {esc : Bool}
    (h : findCloseAux u i esc = none) : findCloseAux u j esc = none := by
  induction u generalizing i j esc with
  | nil => rfl
  | cons b rest ih =>
    cases esc with
    | true => exact ih (i := i + 1) (h := h)
    | false =>
      simp only [findCloseAux] at h ⊢
      by_cases hb : b = '\\'
      · rw [if_pos hb] at h ⊢
        exact ih h
      · rw [if_neg hb] at h ⊢
        by_cases hq : b = '"'
        · rw [if_pos hq] at h
          exact Option.noConfusion h
        · rw [if_neg hq] at h ⊢
          exact ih h

/-- If the scan of `u` finds no closing quote, then starting a fresh scan
just after any quote occurring inside `u` finds none either: every quote
of `u` is skipped as escaped, and right after a skipped character the scan
is back in the unescaped state, which is exactly the state a fresh scan
starts in. -/
theorem findCloseAux_none_suffix {u : List Char} {i : Nat} {esc : Bool}
    (h : findCloseAux u i esc = none) :
    ∀ w, ('"' :: w) <:+ u → findCloseAux w 0 false = none := by
  induction u generalizing i esc with
  | nil =>
    intro w hw
    have := List.suffix_nil.mp hw
    exact List.noConfusion this
  | cons b rest ih =>
    intro w hw
    rw [List.suffix_cons_iff] at hw
    cases esc with
    | true =>
      have h2 : findCloseAux rest (i + 1) false = none := h
      rcases hw with heq | hw
      · injection heq with h1 h2'
        subst h2'
        exact findCloseAux_none_shift h2
      · exact ih h2 w hw
    | false =>
      simp only [findCloseAux] at h
      by_cases hb : b = '\\'
      · rw [if_pos hb] at h
        rcases hw with heq | hw
        · injection heq with h1 _
          exact absurd (h1.trans hb) (by decide)
        · exact ih h w hw
      · rw [if_neg hb] at h
        by_cases hq : b = '"'
        · rw [if_pos hq] at h
          exact Option.noConfusion h
        · rw [if_neg hq] at h
          rcases hw with heq | hw
          · injection heq with h1 _
            exact absurd h1.symm hq
          · exact ih h w hw

/-- If `Next` generated a String token, the unconsumed text began with a
quote and the escape scan found a closing quote. -/
theorem Next_string_inv {t : Tokenizer} (h : (Next t).1.typ = TypeString) :
    ∃ tail i, t.remaining = '"' :: tail ∧ findCloseAux tail 0 false = some i := by
  cases hcom : getComment t with
  | some p =>
    obtain ⟨v, n, _, _, hp⟩ := getComment_some hcom
    rw [show Next t = p from by simp only [Next, hcom], hp] at h
    simp [newToken, TypeComment, TypeEOF, TypeWhitespace, TypeKeyword, TypeNewline, TypeSymbol, TypeID, TypeNumber, TypeUnknown, TypeString] at h
  | none =>
    cases hrem : t.remaining with
    | nil =>
      rw [show Next t = (newToken t TypeEOF "", t) from by simp only [Next, hcom, hrem]] at h
      simp [newToken, TypeComment, TypeEOF, TypeWhitespace, TypeKeyword, TypeNewline, TypeSymbol, TypeID, TypeNumber, TypeUnknown, TypeString] at h
    | cons c cs =>
      cases hws : getWhitespace t with
      | some p =>
        obtain ⟨v, n, _, _, hp⟩ := getWhitespace_some hws
        rw [show Next t = p from by simp only [Next, hcom, hrem, hws], hp] at h
        simp [newToken, TypeComment, TypeEOF, TypeWhitespace, TypeKeyword, TypeNewline, TypeSymbol, TypeID, TypeNumber, TypeUnknown, TypeString] at h
      | none =>
        cases hkw : getKeyword t with
        | some p =>
          obtain ⟨v, n, _, _, hp⟩ := getKeyword_some hkw
          rw [show Next t = p from by simp only [Next, hcom, hrem, hws, hkw], hp] at h
          simp [newToken, TypeComment, TypeEOF, TypeWhitespace, TypeKeyword, TypeNewline, TypeSymbol, TypeID, TypeNumber, TypeUnknown, TypeString] at h
        | none =>
          cases hnl : getNewline t with
          | some p =>
            obtain ⟨_, hp⟩ := getNewline_some hnl
            rw [show Next t = p from by simp only [Next, hcom, hrem, hws, hkw, hnl], hp] at h
            simp [newToken, TypeComment, TypeEOF, TypeWhitespace, TypeKeyword, TypeNewline, TypeSymbol, TypeID, TypeNumber, TypeUnknown, TypeString] at h
          | none =>
            cases hsym : getSymbol t with
            | some p =>
              obtain ⟨v, n, _, _, hp⟩ := getSymbol_some hsym
              rw [show Next t = p from by
                simp only [Next, hcom, hrem, hws, hkw, hnl, hsym], hp] at h
              simp [newToken, TypeComment, TypeEOF, TypeWhitespace, TypeKeyword, TypeNewline, TypeSymbol, TypeID, TypeNumber, TypeUnknown, TypeString] at h
            | none =>
              cases hid : getIdentifier t with
              | some p =>
                obtain ⟨v, n, _, _, hp⟩ := getIdentifier_some hid
                rw [show Next t = p from by
                  simp only [Next, hcom, hrem, hws, hkw, hnl, hsym, hid], hp] at h
                simp [newToken, TypeComment, TypeEOF, TypeWhitespace, TypeKeyword, TypeNewline, TypeSymbol, TypeID, TypeNumber, TypeUnknown, TypeString] at h
              | none =>
                cases hstr : getStringConstant t with
                | some p =>
                  obtain ⟨tail, i, hrem2, _, hfind, _⟩ := getStringConstant_some hstr
                  rw [hrem] at hrem2
                  exact ⟨tail, i, hrem2, hfind⟩
                | none =>
                  cases hnum : getNumberConstant t with
                  | some p =>
                    obtain ⟨v, n, _, _, hp⟩ := getNumberConstant_some hnum
                    rw [show Next t = p from by
                      simp only [Next, hcom, hrem, hws, hkw, hnl, hsym, hid, hstr, hnum],
                      hp] at h
                    simp [newToken, TypeComment, TypeEOF, TypeWhitespace, TypeKeyword, TypeNewline, TypeSymbol, TypeID, TypeNumber, TypeUnknown, TypeString] at h
                  | none =>
                    rw [show Next t = (newToken t TypeUnknown (String.mk [c]), advance t 1) from by
                      simp only [Next, hcom, hrem, hws, hkw, hnl, hsym, hid, hstr, hnum]] at h
                    simp [newToken, TypeComment, TypeEOF, TypeWhitespace, TypeKeyword, TypeNewline, TypeSymbol, TypeID, TypeNumber, TypeUnknown, TypeString] at h

/-! ### Recognizers that cannot fire on a given head character -/

theorem getComment_none_of_quote {t : Tokenizer} {tail : List Char}
    (h : t.remaining = '"' :: tail) : getComment t = none := by
  cases tail <;> simp [getComment, h]

theorem getWhitespace_none_of_quote {t : Tokenizer} {tail : List Char}
    (h : t.remaining = '"' :: tail) : getWhitespace t = none := by
  simp [getWhitespace, h]

theorem getKeyword_none_of_quote {t : Tokenizer} {tail : List Char}
    (h : t.remaining = '"' :: tail) : getKeyword t = none := by
  unfold getKeyword
  rw [h]
  rfl

theorem getNewline_none_of_quote {t : Tokenizer} {tail : List Char}
    (h : t.remaining = '"' :: tail) : getNewline t = none := by
  unfold getNewline
  rw [h]
  rfl

theorem getSymbol_none_of_quote {t : Tokenizer} {tail : List Char}
    (h : t.remaining = '"' :: tail) : getSymbol t = none := by
  unfold getSymbol
  rw [h]
  rfl

theorem getIdentifier_none_of_quote {t : Tokenizer} {tail : List Char}
    (h : t.remaining = '"' :: tail) : getIdentifier t = none := by
  unfold getIdentifier
  rw [h]
  rfl

theorem getNumberConstant_none_of_quote {t : Tokenizer} {tail : List Char}
    (h : t.remaining = '"' :: tail) : getNumberConstant t = none := by
  unfold getNumberConstant
  rw [h]
  rfl

theorem getStringConstant_none_of_noclose {t : Tokenizer} {tail : List Char}
    (h : t.remaining = '"' :: tail) (hnone : findCloseAux tail 0 false = none) :
    getStringConstant t = none := by
  simp only [getStringConstant, h]
  rcases eq_or_ne tail [] with he | he
  · rw [if_neg]
    intro hc
    exact hc.2 he
  · rw [if_pos ⟨trivial, he⟩, hnone]

theorem getComment_none_of_newline {t : Tokenizer} {tail : List Char}
    (h : t.remaining = '\n' :: tail) : getComment t = none := by
  cases tail <;> simp [getComment, h]

theorem getWhitespace_none_of_newline {t : Tokenizer} {tail : List Char}
    (h : t.remaining = '\n' :: tail) : getWhitespace t = none := by
  simp [getWhitespace, h]

theorem getKeyword_none_of_newline {t : Tokenizer} {tail : List Char}
    (h : t.remaining = '\n' :: tail) : getKeyword t = none := by
  unfold getKeyword
  rw [h]
  rfl

/-- `find?` skips a head on which the predicate is false. -/
theorem find?_eq_none_of_head_false {p : String → Bool} {a : String}
    {l : List String} (h : p a = false) (hrest : l.find? p = none) :
    (a :: l).find? p = none := by
  simp [List.find?, h, hrest]

/-! ### Claim theorems -/

/-- C1 (counterexample): tokenizing `"// hello\n"` does give a first
Comment token, but its value is `"// hello"` — the leading `//` is *not*
stripped — so the value is not `" hello"`. -/
theorem comment_keeps_slashes_cex :
    (Next (Load "// hello\n")).1.typ = TypeComment ∧
      (Next (Load "// hello\n")).1.value = "// hello" ∧
      ("// hello" : String) ≠ " hello" := by decide

/-- C1 (amended): tokenizing `"// hello\n"` yields first exactly one
Comment token whose value is `"// hello"` (leading `//` kept, trailing
newline excluded), followed by a Newline token (and then EOF). -/
theorem tokenize_comment_line :
    tokens (Load "// hello\n") 3 =
      [{ typ := TypeComment, value := "// hello", pos := { Line := 1, Coloumn := 1 } },
       { typ := TypeNewline, value := "", pos := { Line := 1, Coloumn := 9 } },
       { typ := TypeEOF, value := "", pos := { Line := 2, Coloumn := 1 } }] := by decide

/-- C2: when the unconsumed text is at least two characters, begins with a
quote and the escape scan finds a closing quote at index `i`, `Next`
returns exactly one String token whose value is the raw text strictly
between the quotes (escapes untouched), and the cursor advances just past
the closing quote. -/
theorem string_token_spec (t : Tokenizer) (tail : List Char) (i : Nat)
    (hrem : t.remaining = '"' :: tail) (hne : tail ≠ [])
    (hclose : findCloseAux tail 0 false = some i) :
    Next t = (newToken t TypeString (tail.take i).asString, advance t (i + 2)) := by
  have h1 := getComment_none_of_quote hrem
  have h2 := getWhitespace_none_of_quote hrem
  have h3 := getKeyword_none_of_quote hrem
  have h4 := getNewline_none_of_quote hrem
  have h5 := getSymbol_none_of_quote hrem
  have h6 := getIdentifier_none_of_quote hrem
  have h7 : getStringConstant t
      = some (newToken t TypeString (tail.take i).asString, advance t (i + 2)) := by
    simp only [getStringConstant, hrem]
    rw [if_pos ⟨trivial, hne⟩, hclose]
  simp only [Next, h1, hrem, h2, h3, h4, h5, h6, h7]

/-- Witness for C2 at the input `"a\"b"x`: the String token's value is
the raw `a\"b` with the escape left unprocessed. -/
theorem string_token_spec_witness :
    Next (Load "\"a\\\"b\"x") =
      (newToken (Load "\"a\\\"b\"x") TypeString "a\\\"b",
        advance (Load "\"a\\\"b\"x") 6) :=
  string_token_spec (Load "\"a\\\"b\"x") ['a', '\\', '"', 'b', '"', 'x'] 4
    rfl (by decide) rfl

/-- C3: on text that begins with a quote but has no unescaped closing
quote, no call of the whole token stream ever produces a String token, and
the first call falls through to a one-character Unknown token; concretely,
`"abc` tokenizes to Unknown `"`, Identifier `abc`, then EOF forever. -/
theorem unterminated_string_spec :
    (∀ (t : Tokenizer) (tail : List Char), t.remaining = '"' :: tail →
        findCloseAux tail 0 false = none →
        (∀ n, (tokenAt t n).typ ≠ TypeString) ∧
          Next t = (newToken t TypeUnknown "\"", advance t 1)) ∧
      tokens (Load "\"abc") 4 =
        [{ typ := TypeUnknown, value := "\"", pos := { Line := 1, Coloumn := 1 } },
         { typ := TypeID, value := "abc", pos := { Line := 1, Coloumn := 2 } },
         { typ := TypeEOF, value := "", pos := { Line := 1, Coloumn := 5 } },
         { typ := TypeEOF, value := "", pos := { Line := 1, Coloumn := 5 } }] := by
  constructor
  · intro t tail hrem hnone
    constructor
    · intro n hstr
      obtain ⟨tail2, i, hrem2, hfind2⟩ := Next_string_inv hstr
      have hsuf := run_remaining_suffix t n
      rw [hrem2, hrem, List.suffix_cons_iff] at hsuf
      rcases hsuf with heq | hsuf
      · injection heq with _ he
        rw [he, hnone] at hfind2
        exact Option.noConfusion hfind2
      · rw [findCloseAux_none_suffix hnone tail2 hsuf] at hfind2
        exact Option.noConfusion hfind2
    · have h1 := getComment_none_of_quote hrem
      have h2 := getWhitespace_none_of_quote hrem
      have h3 := getKeyword_none_of_quote hrem
      have h4 := getNewline_none_of_quote hrem
      have h5 := getSymbol_none_of_quote hrem
      have h6 := getIdentifier_none_of_quote hrem
      have h7 := getStringConstant_none_of_noclose hrem hnone
      have h8 := getNumberConstant_none_of_quote hrem
      simp only [Next, h1, hrem, h2, h3, h4, h5, h6, h7, h8]
  · decide

/-- Witness for C3 at the input `"abc`. -/
theorem unterminated_string_spec_witness :
    (tokenAt (Load "\"abc") 0).typ ≠ TypeString ∧
      Next (Load "\"abc") =
        (newToken (Load "\"abc") TypeUnknown "\"", advance (Load "\"abc") 1) :=
  ⟨(unterminated_string_spec.1 (Load "\"abc") ['a', 'b', 'c'] rfl rfl).1 0,
   (unterminated_string_spec.1 (Load "\"abc") ['a', 'b', 'c'] rfl rfl).2⟩

/-- C4: while unconsumed text remains, every `Next` call strictly shortens
it; on exhausted input `Next` returns an EOF token (empty value) without
advancing; hence from the `length`-th call on, every token of the stream
is EOF. -/
theorem next_terminates :
    (∀ t : Tokenizer, t.remaining ≠ [] →
        (Next t).2.remaining.length < t.remaining.length) ∧
      (∀ t : Tokenizer, t.remaining = [] → Next t = (newToken t TypeEOF "", t)) ∧
      (∀ (t : Tokenizer) (n : Nat), t.remaining.length ≤ n →
        (tokenAt t n).typ = TypeEOF) := by
  refine ⟨fun t h => Next_progress h, fun t h => Next_nil h, fun t n h => ?_⟩
  have hnil := run_remaining_nil h
  show (Next (run t n)).1.typ = TypeEOF
  rw [Next_nil hnil]
  rfl

/-- Witness for C4 on the input `"a"`. -/
theorem next_terminates_witness :
    (Next (Load "a")).2.remaining.length < (Load "a").remaining.length ∧
      Next (run (Load "a") 3) =
        (newToken (run (Load "a") 3) TypeEOF "", run (Load "a") 3) ∧
      (tokenAt (Load "a") 1).typ = TypeEOF :=
  ⟨next_terminates.1 (Load "a") (by decide),
   next_terminates.2.1 (run (Load "a") 3) (by decide),
   next_terminates.2.2 (Load "a") 1 (by decide)⟩

/-- C5: `getSymbol` returns the first entry of the ordered symbol list
that literally prefixes the remaining text, so `">="` tokenizes to the
single Symbol `">="` (never `">"` then `"="`) and `">"` to the single
Symbol `">"`. -/
theorem symbol_list_order_spec :
    (∀ t : Tokenizer,
        getSymbol t = (symbols.find? fun s => startsWith s.data t.remaining).map
          fun s => (newToken t TypeSymbol s, advance t s.length)) ∧
      tokens (Load ">=") 2 =
        [{ typ := TypeSymbol, value := ">=", pos := { Line := 1, Coloumn := 1 } },
         { typ := TypeEOF, value := "", pos := { Line := 1, Coloumn := 3 } }] ∧
      tokens (Load ">") 2 =
        [{ typ := TypeSymbol, value := ">", pos := { Line := 1, Coloumn := 1 } },
         { typ := TypeEOF, value := "", pos := { Line := 1, Coloumn := 2 } }] := by
  refine ⟨fun t => ?_, by decide, by decide⟩
  unfold getSymbol
  cases hfind : symbols.find? fun s => startsWith s.data t.remaining <;> rfl

/-- C6: a keyword is recognized only when followed by a word boundary, so
a keyword word followed by a word character is not a Keyword match, and
`"ifx"` tokenizes to the single Identifier `"ifx"`. -/
theorem keyword_requires_boundary :
    (∀ (t : Tokenizer) (c : Char) (cs : List Char),
        t.remaining = 'i' :: 'f' :: c :: cs → isWordChar c = true →
        getKeyword t = none) ∧
      tokens (Load "ifx") 2 =
        [{ typ := TypeID, value := "ifx", pos := { Line := 1, Coloumn := 1 } },
         { typ := TypeEOF, value := "", pos := { Line := 1, Coloumn := 4 } }] := by
  refine ⟨fun t c cs hrem hw => ?_, by decide⟩
  unfold getKeyword
  rw [hrem]
  have hlen : ("if" : String).length = 2 := rfl
  have hdata : ("if" : String).data = ['i', 'f'] := rfl
  have hfind : (keywords.find? fun kw => startsWith kw.data ('i' :: 'f' :: c :: cs)
      && boundaryAfter ('i' :: 'f' :: c :: cs) kw.length) = none := by
    rw [show keywords = "if" :: ["else", "end", "then", "goto", "and", "or", "not"] from rfl]
    exact find?_eq_none_of_head_false
      (by simp [startsWith, boundaryAfter, hdata, hlen, hw]) rfl
  rw [hfind]

/-- Witness for C6 at the input `"ifx"`. -/
theorem keyword_requires_boundary_witness :
    getKeyword (Load "ifx") = none ∧
      tokens (Load "ifx") 2 =
        [{ typ := TypeID, value := "ifx", pos := { Line := 1, Coloumn := 1 } },
         { typ := TypeEOF, value := "", pos := { Line := 1, Coloumn := 4 } }] :=
  ⟨keyword_requires_boundary.1 (Load "ifx") 'x' [] rfl rfl,
   keyword_requires_boundary.2⟩

/-- C7: `Load` lowercases the whole input, so `"IF"` tokenizes to the
Keyword `"if"`, and uppercase letters inside a string literal come out
lowercased in the String token's value (`"AB"` yields value `"ab"`). -/
theorem load_lowercases_input :
    tokens (Load "IF") 2 =
      [{ typ := TypeKeyword, value := "if", pos := { Line := 1, Coloumn := 1 } },
       { typ := TypeEOF, value := "", pos := { Line := 1, Coloumn := 3 } }] ∧
      (Next (Load "\"AB\"")).1 =
        { typ := TypeString, value := "ab", pos := { Line := 1, Coloumn := 1 } } := by
  decide

/-- C8: on a leading newline character, `Next` emits a Newline token with
empty value at the pre-advance position, the line grows by one, the column
is reset (0, then the one-character advance makes it 1) and the cursor
moves one character, so the next emitted token is positioned at column 1
of the new line. -/
theorem newline_token_spec (t : Tokenizer) (rest : List Char)
    (hrem : t.remaining = '\n' :: rest) :
    Next t = ({ typ := TypeNewline, value := "", pos := { Line := t.line, Coloumn := t.column } }, { column := 1, line := t.line + 1, remaining := rest }) ∧
      (tokenAt t 1).pos = { Line := t.line + 1, Coloumn := 1 } := by
  have h1 := getComment_none_of_newline hrem
  have h2 := getWhitespace_none_of_newline hrem
  have h3 := getKeyword_none_of_newline hrem
  have h4 : getNewline t = some ({ typ := TypeNewline, value := "", pos := { Line := t.line, Coloumn := t.column } }, { column := 1, line := t.line + 1, remaining := rest }) := by
    simp only [getNewline, hrem]
    simp [newToken, advance, hrem]
  have hN : Next t = ({ typ := TypeNewline, value := "", pos := { Line := t.line, Coloumn := t.column } }, { column := 1, line := t.line + 1, remaining := rest }) := by
    simp only [Next, h1, hrem, h2, h3, h4]
  refine ⟨hN, ?_⟩
  show (Next (run t 1)).1.pos = _
  have hr : run t 1 = (Next t).2 := rfl
  rw [hr, hN, Next_pos]

/-- Witness for C8 at the input `"\n"`. -/
theorem newline_token_spec_witness :
    Next (Load "\n") = ({ typ := TypeNewline, value := "", pos := { Line := 1, Coloumn := 1 } }, { column := 1, line := 2, remaining := [] }) ∧
      (tokenAt (Load "\n") 1).pos = { Line := 2, Coloumn := 1 } :=
  newline_token_spec (Load "\n") [] rfl

/-- C9: across the emitted token stream, consecutive token positions
either keep the line with a non-decreasing column, or move to the next
line with the column reset to 1 — i.e. positions are non-decreasing in
(line, column) lexicographic order with one column reset per line
increment. -/
theorem token_positions_monotone (input : String) (n : Nat) :
    ((tokenAt (Load input) (n + 1)).pos.Line = (tokenAt (Load input) n).pos.Line ∧
        (tokenAt (Load input) n).pos.Coloumn ≤ (tokenAt (Load input) (n + 1)).pos.Coloumn) ∨
      ((tokenAt (Load input) (n + 1)).pos.Line = (tokenAt (Load input) n).pos.Line + 1 ∧
        (tokenAt (Load input) (n + 1)).pos.Coloumn = 1) := by
  have h0 : tokenAt (Load input) n = (Next (run (Load input) n)).1 := rfl
  have h1 : tokenAt (Load input) (n + 1) = (Next (Next (run (Load input) n)).2).1 := by
    show (Next (run (Load input) (n + 1))).1 = _
    rw [run_succ]
  rw [h0, h1, Next_pos, Next_pos]
  exact Next_line_col (run (Load input) n)

/-- C10: a colon immediately followed by a keyword word is a single
Identifier token that includes the colon: the keyword pattern cannot match
before `':'`, while the identifier pattern accepts the optional leading
colon, so `":if"` tokenizes to the Identifier `":if"`. -/
theorem colon_keyword_is_identifier :
    getKeyword (Load ":if") = none ∧
      tokens (Load ":if") 2 =
        [{ typ := TypeID, value := ":if", pos := { Line := 1, Coloumn := 1 } },
         { typ := TypeEOF, value := "", pos := { Line := 1, Coloumn := 4 } }] := by
  decide

end Yodk
